import Mathlib

/-!
Verification of the dependency-graph engine of the `deplister` repository.

The Go sources embedded here:

* `pkg/scanners` (graph model and algorithms): `DependencyPath`, `Dependency`,
  `DependencyGraph`, `FindAllPaths` / `findPaths`, `CalculateDepth` /
  `calculateMinDepth`, and the error values `ErrProjectNotFound`,
  `ErrInvalidProject`, `ErrScanFailed`.
* `pkg/scanners/golang/scanner.go`: the per-module resolution loop of
  `ScanDependencies` (paths, minimum depth, parents, direct/indirect
  classification), the `go.mod` parser `getDirectDependencies`, and the
  `go mod graph` edge parsing of `buildDependencyGraph`.
* `pkg/scanners/npm/scanner.go`: the per-package resolution loop of
  `ScanDependencies`.

Modelling conventions:

* Go `map[string][]string` becomes an association list
  `List (String × List String)` with unique keys (Go maps cannot repeat a
  key); `map` lookup of a missing key yields the zero value `[]`.
  Go map iteration order is unspecified; the association list fixes one
  concrete order, which only affects the order of result lists, never
  membership.
* Go `map[string]bool` sets become `List String` with `∈` / `contains`.
* Machine integers (`int`) become `Int`; the depth arithmetic of the source
  never approaches overflow, and `-1` is used as a sentinel exactly as in Go.
* Recursion with a mutated-and-restored `visited` map is modelled by passing
  the visited set functionally: the Go code sets `visited[x] = true` before
  its recursive calls and resets `visited[x] = false` afterwards, which is
  exactly call-by-value threading of the set.
* Go string functions (`strings.Split`, `strings.Fields`,
  `strings.TrimSpace`, `strings.HasPrefix`, `strings.HasSuffix`,
  `strings.Contains`) are modelled character-by-character on `String.data`
  so that every parser is kernel-evaluable.
-/

/-- The three error values of `pkg/scanners` (`ErrProjectNotFound`,
`ErrInvalidProject`, `ErrScanFailed`). -/
inductive ScanError where
  | projectNotFound : ScanError
  | invalidProject : ScanError
  | scanFailed : ScanError
deriving DecidableEq, Repr

/-- `DependencyPath` (scanner package): an ordered list of node identities from
root to target, with its `Depth`. -/
structure DependencyPath where
  Path : List String
  Depth : Int
deriving DecidableEq, Repr

/-- `Dependency` (scanner package).  The free-form `Properties`
map (`map[string]string`) is omitted: it is write-only metadata that no claim
concerns, and no algorithm of the engine reads it back. -/
structure Dependency where
  Name : String
  Version : String
  Type' : String -- `Type` in the Go source; `Type` is a Lean keyword
  IsDirectDep : Bool
  Parent : String
  Parents : List String
  Paths : List DependencyPath
  Depth : Int
deriving DecidableEq, Repr

/-- `DependencyGraph` (scanner package).  Only the `Edges` adjacency map is
modelled: the `Nodes map[string]*Dependency` field is written by the scanners
but never read by `FindAllPaths` or `CalculateDepth`, and no claim concerns
it. -/
structure DependencyGraph where
  Edges : List (String × List String)
deriving DecidableEq, Repr

/-- Go map lookup `g.Edges[current]`: the value at the first (unique) matching
key, or the zero value `[]` when the key is absent. -/
def lookupEdges : List (String × List String) → String → List String
  | [], _ => []
  | (k, vs) :: rest, c => if c = k then vs else lookupEdges rest c

/-- `g.Edges[current]` as a graph operation. -/
def DependencyGraph.getEdges (g : DependencyGraph) (c : String) : List String :=
  lookupEdges g.Edges c

/-- All node identities mentioned by the edge map (keys and targets); a finite
universe bounding every traversal of the graph. -/
def DependencyGraph.support (g : DependencyGraph) : Finset String :=
  (g.Edges.map Prod.fst ++ g.Edges.flatMap Prod.snd).toFinset

/-- The edge relation of a graph: `hasEdge g a b` iff `b` appears in the
adjacency list of `a`. -/
def DependencyGraph.hasEdge (g : DependencyGraph) (a b : String) : Prop :=
  b ∈ g.getEdges a

/-- Reachability through the edge relation (zero or more edges). -/
def DependencyGraph.Reachable (g : DependencyGraph) (a b : String) : Prop :=
  Relation.ReflTransGen g.hasEdge a b

/-- `findPaths` (scanner package lines 78-98): depth-first path enumeration
with a path-local visited set.  Termination: each recursive call inserts the
unvisited key `current` into `visited`, strictly shrinking the unvisited part
of the finite support. -/
def findPaths (g : DependencyGraph) (target : String) (current : String)
    (path : List String) (visited : List String) : List DependencyPath :=
  if current ∈ visited then []
  else
    let newPath := path ++ [current]
    if current = target then
      [{ Path := newPath, Depth := (newPath.length : Int) - 1 }]
    else
      (g.getEdges current).attach.flatMap (fun next =>
        findPaths g target next.1 newPath (current :: visited))
termination_by (g.support \ visited.toFinset).card
decreasing_by
  rename_i hnv _
  have hkey : ∀ (es : List (String × List String)) (c a : String),
      a ∈ lookupEdges es c → c ∈ es.map Prod.fst := by
    intro es
    induction es with
    | nil => intro c a h; simp [lookupEdges] at h
    | cons p rest ih =>
      intro c a h
      simp only [lookupEdges] at h
      by_cases hc : c = p.1
      · simp [hc]
      · simp only [if_neg hc] at h
        simp [ih c a h]
  have hsup : current ∈ g.support := by
    simp only [DependencyGraph.support, List.mem_toFinset, List.mem_append]
    exact Or.inl (hkey g.Edges current next.1 next.2)
  apply Finset.card_lt_card
  constructor
  · apply Finset.sdiff_subset_sdiff le_rfl
    intro x hx
    simp only [List.toFinset_cons, Finset.mem_insert]
    exact Or.inr hx
  · intro hsub
    have h1 : current ∈ g.support \ visited.toFinset := by
      simp only [Finset.mem_sdiff, List.mem_toFinset]
      exact ⟨hsup, hnv⟩
    have h2 := hsub h1
    simp [Finset.mem_sdiff] at h2

/-- `FindAllPaths` (scanner package lines 71-76). -/
def FindAllPaths (g : DependencyGraph) (src tgt : String) : List DependencyPath :=
  findPaths g tgt src [] []

/-- The parent occurrences scanned by `calculateMinDepth` lines 114-116: one
entry per pair `(parent, child)` of the edge map with `child == name`. -/
def parentOccurrences (g : DependencyGraph) (name : String) : List String :=
  g.Edges.flatMap (fun pc => (pc.2.filter (fun child => child = name)).map (fun _ => pc.1))

/-- `calculateMinDepth` (scanner package lines 106-130): backward recursive
depth computation.  For each edge-map occurrence of `name` as a child it
computes the parent's recursive depth, then folds the Go update
`if parentDepth != -1 { depth := parentDepth + 1; if minDepth == -1 || depth <
minDepth { minDepth = depth } }` over the results, starting from `-1`. -/
def calculateMinDepth (g : DependencyGraph) (name : String) (visited : List String) : Int :=
  if name ∈ visited then -1
  else
    ((parentOccurrences g name).attach.map (fun parent =>
        calculateMinDepth g parent.1 (name :: visited))).foldl
      (fun minDepth parentDepth =>
        if parentDepth ≠ -1 then
          if minDepth = -1 ∨ parentDepth + 1 < minDepth then parentDepth + 1 else minDepth
        else minDepth) (-1)
termination_by (g.support \ visited.toFinset).card
decreasing_by
  rename_i hnv
  have htgt : name ∈ g.Edges.flatMap Prod.snd := by
    have h := parent.2
    simp only [parentOccurrences, List.mem_flatMap, List.mem_map, List.mem_filter] at h
    obtain ⟨pc, hpc, c, ⟨hc, hceq⟩, _⟩ := h
    simp only [List.mem_flatMap]
    refine ⟨pc, hpc, ?_⟩
    have hcn : c = name := by simpa using hceq
    exact hcn ▸ hc
  have hsup : name ∈ g.support := by
    simp only [DependencyGraph.support, List.mem_toFinset, List.mem_append]
    exact Or.inr htgt
  apply Finset.card_lt_card
  constructor
  · apply Finset.sdiff_subset_sdiff le_rfl
    intro x hx
    simp only [List.toFinset_cons, Finset.mem_insert]
    exact Or.inr hx
  · intro hsub
    have h1 : name ∈ g.support \ visited.toFinset := by
      simp only [Finset.mem_sdiff, List.mem_toFinset]
      exact ⟨hsup, hnv⟩
    have h2 := hsub h1
    simp [Finset.mem_sdiff] at h2

/-- `CalculateDepth` (scanner package lines 100-104). -/
def DependencyGraph.CalculateDepth (g : DependencyGraph) (name : String) : Int :=
  calculateMinDepth g name []

/-- The inline minimum-depth loop of both scanners (golang lines 91-96, npm
lines 117-122): `minDepth := -1; for path { if minDepth == -1 || path.Depth <
minDepth { minDepth = path.Depth } }`. -/
def scanMinDepth (paths : List DependencyPath) : Int :=
  paths.foldl (fun minDepth p =>
    if minDepth = -1 ∨ p.Depth < minDepth then p.Depth else minDepth) (-1)

/-- The inline parents loop of both scanners (golang lines 99-106, npm lines
125-132): every `(parent, child)` occurrence of the edge map with
`child == name && parent != root` appends `parent`. -/
def scanParents (edges : List (String × List String)) (root name : String) : List String :=
  edges.flatMap (fun pc =>
    (pc.2.filter (fun child => child = name ∧ pc.1 ≠ root)).map (fun _ => pc.1))

/-- Fuel-indexed twin of `findPaths`, structurally recursive and hence
kernel-evaluable; used only to compute concrete instances, and proved equal to
`findPaths` whenever the fuel dominates the unvisited support. -/
def findPathsF (g : DependencyGraph) :
    Nat → String → String → List String → List String → List DependencyPath
  | 0, _, _, _, _ => []
  | fuel + 1, target, current, path, visited =>
    if current ∈ visited then []
    else
      let newPath := path ++ [current]
      if current = target then
        [{ Path := newPath, Depth := (newPath.length : Int) - 1 }]
      else
        (g.getEdges current).flatMap (fun next =>
          findPathsF g fuel target next newPath (current :: visited))

/-- Kernel-evaluable form of `FindAllPaths` (the fuel `support.card + 1`
always suffices); used to compute concrete instances. -/
def FindAllPathsE (g : DependencyGraph) (src tgt : String) : List DependencyPath :=
  findPathsF g (g.support.card + 1) tgt src [] []

/-- The newline character, for splitting file content into lines. -/
def lfChar : Char := Char.ofNat 10

/-- The space character, the field separator of `go.mod` and `go mod graph`
lines. -/
def spChar : Char := Char.ofNat 32

/-- The `@` character separating module path from version in `go mod graph`
output. -/
def atChar : Char := Char.ofNat 64

/-- Split a character list at every occurrence of `sep`, keeping empty
segments, as Go's `strings.Split` does. -/
def splitChar (sep : Char) : List Char → List (List Char)
  | [] => [[]]
  | c :: rest =>
    match splitChar sep rest with
    | [] => [[]]
    | seg :: segs => if c = sep then [] :: seg :: segs else (c :: seg) :: segs

/-- Go `strings.Split(s, sep)` for a one-character separator. -/
def strSplit (s : String) (sep : Char) : List String :=
  (splitChar sep s.data).map String.mk

/-- Go `strings.TrimSpace`: drop whitespace from both ends. -/
def goTrimSpace (s : String) : String :=
  ⟨(((s.data.dropWhile Char.isWhitespace).reverse).dropWhile Char.isWhitespace).reverse⟩

/-- Go `strings.HasPrefix`. -/
def strStarts (s p : String) : Bool :=
  p.data.isPrefixOf s.data

/-- Go `strings.HasSuffix`. -/
def strEnds (s p : String) : Bool :=
  p.data.isSuffixOf s.data

/-- Go `strings.Contains`: `p` occurs as a substring of `s`. -/
def strContains (s p : String) : Bool :=
  s.data.tails.any (fun t => p.data.isPrefixOf t)

/-- Go `strings.Fields` on a line: split on whitespace and drop the empty
segments.  The `go.mod` and `go mod graph` lines handled here separate their
fields with single spaces (interior tabs do not occur), so splitting on the
space character is faithful. -/
def goFields (s : String) : List String :=
  (strSplit s spChar).filter (fun f => f ≠ "")

/-- One line of `getDirectDependencies` (golang/scanner.go lines 165-204),
threading the `inRequireBlock` flag and the accumulated direct-dependency
set. -/
def goModStep (st : Bool × List String) (rawLine : String) : Bool × List String :=
  let line := goTrimSpace rawLine
  if line = "" ∨ strStarts line "//" then st
  else if strStarts line "require " ∧ ¬ strEnds line "(" then
    match (goFields line).drop 1 with
    | [] => st
    | dep :: _ => if ¬ strContains line "// indirect" then (st.1, st.2 ++ [dep]) else st
  else if line = "require (" then (true, st.2)
  else if line = ")" then (false, st.2)
  else if st.1 then
    match goFields line with
    | [] => st
    | dep :: _ => if ¬ strContains line "// indirect" then (st.1, st.2 ++ [dep]) else st
  else st

/-- `getDirectDependencies` (golang/scanner.go lines 154-207): parse `go.mod`
content into the set of direct (not `// indirect`) requirement paths.  The
file read itself is excluded I/O; this takes the file content.  The Go
`map[string]bool` set is modelled as the list of added keys, queried with
`contains`. -/
def getDirectDependencies (content : String) : List String :=
  ((strSplit content lfChar).foldl goModStep (false, [])).2

/-- `graph.edges[fromPath] = append(graph.edges[fromPath], toPath)` on the
association-list edge map: append to the existing entry, or create one. -/
def addGraphEdge : List (String × List String) → String → String → List (String × List String)
  | [], k, v => [(k, [v])]
  | (k', vs) :: rest, k, v =>
    if k = k' then (k', vs ++ [v]) :: rest else (k', vs) :: addGraphEdge rest k v

/-- `strings.Split(mod, "@")[0]`: the module path of a `path@version` token. -/
def stripVersion (s : String) : String :=
  (strSplit s atChar).headD ""

/-- The `go mod graph` edge parsing of `buildDependencyGraph`
(golang/scanner.go lines 248-262): each line with exactly two fields
contributes the edge `fromPath -> toPath` with versions stripped.  The
`bufio.Scanner` line splitting is modelled by taking the output lines. -/
def parseGraphLines (lines : List String) : List (String × List String) :=
  lines.foldl (fun es line =>
    match goFields line with
    | [fromMod, toMod] => addGraphEdge es (stripVersion fromMod) (stripVersion toMod)
    | _ => es) []

/-- `ModuleInfo` (golang/scanner.go lines 19-26).  The `Replace` and
`Requires` fields are omitted: they feed only the free-form properties map and
JSON decoding, which no claim concerns. -/
structure ModuleInfo where
  Path : String
  Version : String
  Main : Bool
  Indirect : Bool
deriving DecidableEq, Repr

/-- The per-module body of the Go scanner's resolution loop
(golang/scanner.go lines 89-143): paths from the main module, minimum depth,
parents excluding the main module, and the dual direct-dependency check
`!info.Indirect && directDeps[modPath]` of line 130. -/
def mkGoDep (g : DependencyGraph) (mainModule : String) (directDeps : List String)
    (info : ModuleInfo) : Dependency :=
  let paths := FindAllPaths g mainModule info.Path
  let parents := scanParents g.Edges mainModule info.Path
  { Name := info.Path
    Version := info.Version
    Type' := "go"
    IsDirectDep := (!info.Indirect) && directDeps.contains info.Path
    Parent := parents.headD ""
    Parents := parents
    Paths := paths
    Depth := scanMinDepth paths }

/-- The Go scanner's resolution phase (golang/scanner.go lines 84-150): one
`Dependency` per module other than the main module, and the
`ErrInvalidProject` guard on an empty result.  `graph.nodes` maps
`info.Path` to `info` by construction (line 225), so the node map is the list
of `ModuleInfo` records keyed by their `Path`. -/
def goResolve (g : DependencyGraph) (mainModule : String) (directDeps : List String)
    (nodes : List ModuleInfo) : Except ScanError (List Dependency) :=
  let deps := (nodes.filter (fun info => info.Path ≠ mainModule)).map
    (mkGoDep g mainModule directDeps)
  if deps.isEmpty then Except.error ScanError.invalidProject else Except.ok deps

/-- Association-list lookup for Go maps with non-list values. -/
def alookup {α : Type} : List (String × α) → String → Option α
  | [], _ => none
  | (k, v) :: rest, c => if c = k then some v else alookup rest c

/-- The per-package body of the npm scanner's resolution loop
(npm/scanner.go lines 115-160): paths from the root identity `""`, minimum
depth, parents excluding `""`, version from the lock data, and the
direct-dependency membership test `_, isDirect := directDeps[name]`. -/
def mkNpmDep (g : DependencyGraph) (versions : List (String × String))
    (directDeps : List (String × String)) (name : String) : Dependency :=
  let paths := FindAllPaths g "" name
  let parents := scanParents g.Edges "" name
  { Name := name
    Version := (alookup versions name).getD ""
    Type' := "npm"
    IsDirectDep := (alookup directDeps name).isSome
    Parent := parents.headD ""
    Parents := parents
    Paths := paths
    Depth := scanMinDepth paths }

/-- The npm scanner's resolution phase (npm/scanner.go lines 110-167): one
`Dependency` per node name other than the root `""`, and the
`ErrInvalidProject` guard on an empty result. -/
def npmResolve (g : DependencyGraph) (versions : List (String × String))
    (directDeps : List (String × String)) (nodeNames : List String) :
    Except ScanError (List Dependency) :=
  let deps := (nodeNames.filter (fun name => name ≠ "")).map (mkNpmDep g versions directDeps)
  if deps.isEmpty then Except.error ScanError.invalidProject else Except.ok deps

/-- Kernel-evaluable form of `mkGoDep`. -/
def mkGoDepE (g : DependencyGraph) (mainModule : String) (directDeps : List String)
    (info : ModuleInfo) : Dependency :=
  let paths := FindAllPathsE g mainModule info.Path
  let parents := scanParents g.Edges mainModule info.Path
  { Name := info.Path
    Version := info.Version
    Type' := "go"
    IsDirectDep := (!info.Indirect) && directDeps.contains info.Path
    Parent := parents.headD ""
    Parents := parents
    Paths := paths
    Depth := scanMinDepth paths }

/-- Kernel-evaluable form of `goResolve`. -/
def goResolveE (g : DependencyGraph) (mainModule : String) (directDeps : List String)
    (nodes : List ModuleInfo) : Except ScanError (List Dependency) :=
  let deps := (nodes.filter (fun info => info.Path ≠ mainModule)).map
    (mkGoDepE g mainModule directDeps)
  if deps.isEmpty then Except.error ScanError.invalidProject else Except.ok deps

/-- Kernel-evaluable form of `mkNpmDep`. -/
def mkNpmDepE (g : DependencyGraph) (versions : List (String × String))
    (directDeps : List (String × String)) (name : String) : Dependency :=
  let paths := FindAllPathsE g "" name
  let parents := scanParents g.Edges "" name
  { Name := name
    Version := (alookup versions name).getD ""
    Type' := "npm"
    IsDirectDep := (alookup directDeps name).isSome
    Parent := parents.headD ""
    Parents := parents
    Paths := paths
    Depth := scanMinDepth paths }

/-- Kernel-evaluable form of `npmResolve`. -/
def npmResolveE (g : DependencyGraph) (versions : List (String × String))
    (directDeps : List (String × String)) (nodeNames : List String) :
    Except ScanError (List Dependency) :=
  let deps := (nodeNames.filter (fun name => name ≠ "")).map (mkNpmDepE g versions directDeps)
  if deps.isEmpty then Except.error ScanError.invalidProject else Except.ok deps

/-! ## Helper lemmas -/

theorem mem_keys_of_mem_lookupEdges {es : List (String × List String)} {c a : String}
    (h : a ∈ lookupEdges es c) : c ∈ es.map Prod.fst := by
  induction es with
  | nil => simp [lookupEdges] at h
  | cons p rest ih =>
    simp only [lookupEdges] at h
    by_cases hc : c = p.1
    · simp [hc]
    · simp only [if_neg hc] at h
      simp [ih h]

theorem mem_targets_of_mem_lookupEdges {es : List (String × List String)} {c a : String}
    (h : a ∈ lookupEdges es c) : a ∈ es.flatMap Prod.snd := by
  induction es with
  | nil => simp [lookupEdges] at h
  | cons p rest ih =>
    simp only [lookupEdges] at h
    by_cases hc : c = p.1
    · simp only [if_pos hc] at h
      simp only [List.flatMap_cons, List.mem_append]
      exact Or.inl h
    · simp only [if_neg hc] at h
      simp only [List.flatMap_cons, List.mem_append]
      exact Or.inr (ih h)

theorem support_mem_of_key {g : DependencyGraph} {c a : String}
    (h : a ∈ lookupEdges g.Edges c) : c ∈ g.support := by
  simp only [DependencyGraph.support, List.mem_toFinset, List.mem_append]
  exact Or.inl (mem_keys_of_mem_lookupEdges h)

theorem sdiff_card_lt_of_not_visited {g : DependencyGraph} {current : String}
    {visited : List String} (hsup : current ∈ g.support) (hnv : current ∉ visited) :
    (g.support \ (current :: visited).toFinset).card <
      (g.support \ visited.toFinset).card := by
  apply Finset.card_lt_card
  constructor
  · apply Finset.sdiff_subset_sdiff le_rfl
    intro x hx
    simp only [List.toFinset_cons, Finset.mem_insert]
    exact Or.inr hx
  · intro hsub
    have h1 : current ∈ g.support \ visited.toFinset := by
      simp only [Finset.mem_sdiff, List.mem_toFinset]
      exact ⟨hsup, hnv⟩
    have h2 := hsub h1
    simp [Finset.mem_sdiff] at h2

theorem attach_flatMap_eq {α β : Type} (l : List α) (F : α → List β) :
    l.attach.flatMap (fun x => F x.1) = l.flatMap F := by
  conv_rhs => rw [← List.attach_map_subtype_val l]
  rw [List.flatMap_map]

/-- One-step unfolding of `findPaths` with the bookkeeping `attach` removed. -/
theorem findPaths_unfold (g : DependencyGraph) (target current : String)
    (path visited : List String) :
    findPaths g target current path visited =
      if current ∈ visited then []
      else
        if current = target then
          [{ Path := path ++ [current], Depth := ((path ++ [current]).length : Int) - 1 }]
        else
          (g.getEdges current).flatMap (fun next =>
            findPaths g target next (path ++ [current]) (current :: visited)) := by
  rw [findPaths]
  split
  · rfl
  · split
    · rfl
    · exact attach_flatMap_eq (g.getEdges current)
        (fun next => findPaths g target next (path ++ [current]) (current :: visited))

theorem findPathsF_eq (g : DependencyGraph) (fuel : Nat) (target current : String)
    (path visited : List String)
    (hf : (g.support \ visited.toFinset).card < fuel) :
    findPathsF g fuel target current path visited =
      findPaths g target current path visited := by
  induction fuel generalizing current path visited with
  | zero => omega
  | succ n ih =>
    rw [findPathsF, findPaths_unfold]
    by_cases hv : current ∈ visited
    · simp [hv]
    · simp only [if_neg hv]
      by_cases ht : current = target
      · simp [ht]
      · simp only [if_neg ht]
        apply List.flatMap_congr
        intro next hnext
        apply ih
        have := sdiff_card_lt_of_not_visited (support_mem_of_key hnext) hv
        omega

theorem FindAllPaths_eq_E (g : DependencyGraph) (src tgt : String) :
    FindAllPaths g src tgt = FindAllPathsE g src tgt := by
  rw [FindAllPaths, FindAllPathsE, findPathsF_eq]
  simp

theorem mkGoDep_eq_E (g : DependencyGraph) (mainModule : String) (directDeps : List String)
    (info : ModuleInfo) :
    mkGoDep g mainModule directDeps info = mkGoDepE g mainModule directDeps info := by
  simp [mkGoDep, mkGoDepE, FindAllPaths_eq_E]

theorem goResolve_eq_E (g : DependencyGraph) (mainModule : String) (directDeps : List String)
    (nodes : List ModuleInfo) :
    goResolve g mainModule directDeps nodes = goResolveE g mainModule directDeps nodes := by
  have h : mkGoDep g mainModule directDeps = mkGoDepE g mainModule directDeps :=
    funext (mkGoDep_eq_E g mainModule directDeps)
  simp [goResolve, goResolveE, h]

theorem mkNpmDep_eq_E (g : DependencyGraph) (versions : List (String × String))
    (directDeps : List (String × String)) (name : String) :
    mkNpmDep g versions directDeps name = mkNpmDepE g versions directDeps name := by
  simp [mkNpmDep, mkNpmDepE, FindAllPaths_eq_E]

theorem npmResolve_eq_E (g : DependencyGraph) (versions : List (String × String))
    (directDeps : List (String × String)) (nodeNames : List String) :
    npmResolve g versions directDeps nodeNames = npmResolveE g versions directDeps nodeNames := by
  have h : mkNpmDep g versions directDeps = mkNpmDepE g versions directDeps :=
    funext (mkNpmDep_eq_E g versions directDeps)
  simp [npmResolve, npmResolveE, h]

theorem foldl_min_update_all_neg_one (l : List Int) (h : ∀ x ∈ l, x = -1) (acc : Int) :
    l.foldl (fun minDepth parentDepth =>
      if parentDepth ≠ -1 then
        if minDepth = -1 ∨ parentDepth + 1 < minDepth then parentDepth + 1 else minDepth
      else minDepth) acc = acc := by
  induction l generalizing acc with
  | nil => rfl
  | cons a l ih =>
    have ha : a = -1 := h a (List.mem_cons_self a l)
    subst ha
    simp only [List.foldl_cons]
    rw [if_neg (by norm_num : ¬((-1 : Int) ≠ -1))]
    exact ih (fun x hx => h x (List.mem_cons_of_mem _ hx)) acc

/-- `calculateMinDepth` never escapes its `-1` sentinel: the recursion has no
base case assigning depth `0` to the root, so every parent depth is `-1`, the
update guard `parentDepth != -1` never fires, and the fold returns its initial
`-1` at every node of every graph. -/
theorem calculateMinDepth_eq_neg_one (g : DependencyGraph) (name : String)
    (visited : List String) : calculateMinDepth g name visited = -1 := by
  induction name, visited using calculateMinDepth.induct g with
  | case1 name visited hv => rw [calculateMinDepth, if_pos hv]
  | case2 name visited hv ih =>
    rw [calculateMinDepth, if_neg hv]
    apply foldl_min_update_all_neg_one
    intro x hx
    rw [List.mem_map] at hx
    obtain ⟨parent, hparent, hpx⟩ := hx
    rw [← hpx]
    exact ih parent

/-- Soundness of the DFS enumerator, stated over the fuel twin.  Every emitted
path extends `path ++ [current]`, its new segment is duplicate-free, disjoint
from `visited`, a chain of direct edges ending exactly at `target`, with all
nodes after `current` drawn from edge targets, and its `Depth` is its length
minus one. -/
theorem findPathsF_spec (g : DependencyGraph) (target : String) :
    ∀ (fuel : Nat) (current : String) (path visited : List String) (p : DependencyPath),
      p ∈ findPathsF g fuel target current path visited →
      ∃ rest : List String,
        p.Path = path ++ current :: rest ∧
        (current :: rest).Nodup ∧
        (∀ x ∈ current :: rest, x ∉ visited) ∧
        List.Chain' g.hasEdge (current :: rest) ∧
        (current :: rest).getLast? = some target ∧
        (∀ x ∈ rest, x ∈ g.Edges.flatMap Prod.snd) ∧
        p.Depth = (p.Path.length : Int) - 1 := by
  intro fuel
  induction fuel with
  | zero => intro current path visited p hp; simp [findPathsF] at hp
  | succ n ih =>
    intro current path visited p hp
    rw [findPathsF] at hp
    by_cases hv : current ∈ visited
    · rw [if_pos hv] at hp; simp at hp
    · rw [if_neg hv] at hp
      by_cases ht : current = target
      · rw [if_pos ht] at hp
        simp only [List.mem_singleton] at hp
        refine ⟨[], ?_, ?_, ?_, ?_, ?_, ?_, ?_⟩
        · rw [hp]
        · simp
        · intro x hx
          simp only [List.mem_singleton] at hx
          rw [hx]; exact hv
        · simp [List.chain'_singleton]
        · simp [ht]
        · simp
        · rw [hp]
      · rw [if_neg ht] at hp
        simp only [List.mem_flatMap] at hp
        obtain ⟨next, hnext, hpmem⟩ := hp
        obtain ⟨rest', hPath, hNodup, hVis, hChain, hLast, hTgts, hDepth⟩ :=
          ih next (path ++ [current]) (current :: visited) p hpmem
        refine ⟨next :: rest', ?_, ?_, ?_, ?_, ?_, ?_, hDepth⟩
        · rw [hPath]; simp
        · rw [List.nodup_cons]
          refine ⟨?_, hNodup⟩
          intro hcur
          exact hVis current hcur (List.mem_cons_self current visited)
        · intro x hx
          rcases List.mem_cons.mp hx with hx | hx
          · rw [hx]; exact hv
          · intro hxv
            exact hVis x hx (List.mem_cons_of_mem current hxv)
        · rw [List.chain'_cons]
          exact ⟨hnext, hChain⟩
        · rw [List.getLast?_cons_cons]
          exact hLast
        · intro x hx
          rcases List.mem_cons.mp hx with hx | hx
          · rw [hx]
            exact mem_targets_of_mem_lookupEdges hnext
          · exact hTgts x hx

/-- Soundness of `findPaths` itself, transferred from the fuel twin. -/
theorem findPaths_spec (g : DependencyGraph) (target current : String)
    (path visited : List String) (p : DependencyPath)
    (hp : p ∈ findPaths g target current path visited) :
    ∃ rest : List String,
      p.Path = path ++ current :: rest ∧
      (current :: rest).Nodup ∧
      (∀ x ∈ current :: rest, x ∉ visited) ∧
      List.Chain' g.hasEdge (current :: rest) ∧
      (current :: rest).getLast? = some target ∧
      (∀ x ∈ rest, x ∈ g.Edges.flatMap Prod.snd) ∧
      p.Depth = (p.Path.length : Int) - 1 := by
  rw [← findPathsF_eq g (g.support.card + 1) target current path visited] at hp
  · exact findPathsF_spec g target (g.support.card + 1) current path visited p hp
  · have : (g.support \ visited.toFinset).card ≤ g.support.card :=
      Finset.card_le_card (Finset.sdiff_subset)
    omega

/-- Soundness of `FindAllPaths`: every returned path starts at `src`, is
duplicate-free, follows direct edges, ends at `tgt`, draws its non-head nodes
from edge targets, and carries `Depth = length - 1`. -/
theorem FindAllPaths_spec (g : DependencyGraph) (src tgt : String) (p : DependencyPath)
    (hp : p ∈ FindAllPaths g src tgt) :
    ∃ rest : List String,
      p.Path = src :: rest ∧
      p.Path.Nodup ∧
      List.Chain' g.hasEdge p.Path ∧
      p.Path.getLast? = some tgt ∧
      (∀ x ∈ rest, x ∈ g.Edges.flatMap Prod.snd) ∧
      p.Depth = (p.Path.length : Int) - 1 := by
  rw [FindAllPaths] at hp
  obtain ⟨rest, hPath, hNodup, _, hChain, hLast, hTgts, hDepth⟩ :=
    findPaths_spec g tgt src [] [] p hp
  simp only [List.nil_append] at hPath
  exact ⟨rest, hPath, by rw [hPath]; exact hNodup, by rw [hPath]; exact hChain,
    by rw [hPath]; exact hLast, hTgts, hDepth⟩

/-- In a duplicate-free list, the last element does not also occur earlier. -/
theorem not_mem_dropLast_of_nodup {l : List String} {t : String}
    (hnd : l.Nodup) (hl : l.getLast? = some t) : t ∉ l.dropLast := by
  have hne : l ≠ [] := by
    intro h
    rw [h] at hl
    simp at hl
  have hgl : l.getLast hne = t := by
    rw [List.getLast?_eq_getLast l hne] at hl
    simpa using hl
  intro hmem
  have hsplit := List.dropLast_append_getLast hne
  rw [← hsplit, List.nodup_append] at hnd
  exact hnd.2.2 hmem (by simp [hgl])

/-- A chain of direct edges from `a` ending at `b` witnesses reachability. -/
theorem chain'_reflTransGen {α : Type} {R : α → α → Prop} :
    ∀ (l : List α) (a b : α), List.Chain' R (a :: l) → (a :: l).getLast? = some b →
      Relation.ReflTransGen R a b := by
  intro l
  induction l with
  | nil =>
    intro a b _ hl
    simp only [List.getLast?_singleton, Option.some.injEq] at hl
    rw [← hl]
  | cons c l ih =>
    intro a b hc hl
    rw [List.chain'_cons] at hc
    rw [List.getLast?_cons_cons] at hl
    exact Relation.ReflTransGen.head hc.1 (ih c b hc.2 hl)

/-- The scanners' minimum-depth loop returns `1` as soon as all depths are at
least `1` and some depth equals `1`. -/
theorem scanMinDepth_fold_inv :
    ∀ (l : List DependencyPath) (acc : Int), (∀ p ∈ l, 1 ≤ p.Depth) →
      (acc = -1 ∨ 1 ≤ acc) → ((∃ p ∈ l, p.Depth = 1) ∨ acc = 1) →
      l.foldl (fun minDepth p =>
        if minDepth = -1 ∨ p.Depth < minDepth then p.Depth else minDepth) acc = 1 := by
  intro l
  induction l with
  | nil =>
    intro acc _ _ hor
    rcases hor with hex | hacc
    · simp at hex
    · exact hacc
  | cons p l ih =>
    intro acc h1 hacc hor
    have hp1 : 1 ≤ p.Depth := h1 p (List.mem_cons_self p l)
    have h1' : ∀ q ∈ l, 1 ≤ q.Depth := fun q hq => h1 q (List.mem_cons_of_mem p hq)
    simp only [List.foldl_cons]
    by_cases hcond : acc = -1 ∨ p.Depth < acc
    · rw [if_pos hcond]
      apply ih
      · exact h1'
      · exact Or.inr hp1
      · rcases hor with hex | hacc1
        · rcases hex with ⟨q, hq, hq1⟩
          rcases List.mem_cons.mp hq with rfl | hq'
          · exact Or.inr hq1
          · exact Or.inl ⟨q, hq', hq1⟩
        · exfalso
          rcases hcond with h | h
          · omega
          · omega
    · rw [if_neg hcond]
      apply ih
      · exact h1'
      · exact hacc
      · rcases hor with hex | hacc1
        · rcases hex with ⟨q, hq, hq1⟩
          rcases List.mem_cons.mp hq with rfl | hq'
          · right
            rcases hacc with rfl | hge
            · exact absurd (Or.inl rfl) hcond
            · push_neg at hcond
              omega
          · exact Or.inl ⟨q, hq', hq1⟩
        · exact Or.inr hacc1

theorem scanMinDepth_eq_one (l : List DependencyPath) (h1 : ∀ p ∈ l, 1 ≤ p.Depth)
    (h2 : ∃ p ∈ l, p.Depth = 1) : scanMinDepth l = 1 :=
  scanMinDepth_fold_inv l (-1) h1 (Or.inl rfl) (Or.inl h2)

/-- Contribution of one root edge to the depth-1 paths: the edge to the target
itself yields exactly the path `[root, target]`, an edge to any other node
yields only strictly longer paths. -/
theorem filter_depth_one_flatMap (g : DependencyGraph) (root tgt : String) (hne : tgt ≠ root) :
    ∀ l : List String,
      ((l.flatMap (fun next => findPaths g tgt next [root] [root])).filter
        (fun p => p.Depth = 1)) =
      List.replicate (l.count tgt) { Path := [root, tgt], Depth := 1 } := by
  intro l
  induction l with
  | nil => rfl
  | cons a l ih =>
    simp only [List.flatMap_cons, List.filter_append, ih]
    by_cases ha : a = tgt
    · subst ha
      have hval : findPaths g a a [root] [root] = [{ Path := [root, a], Depth := 1 }] := by
        rw [findPaths_unfold]
        rw [if_neg (by simp [hne]), if_pos rfl]
        norm_num
      rw [hval]
      have : List.count a (a :: l) = List.count a l + 1 := List.count_cons_self a l
      rw [this, List.replicate_succ]
      simp
    · have hnil : (findPaths g tgt a [root] [root]).filter (fun p => p.Depth = 1) = [] := by
        rw [List.filter_eq_nil_iff]
        intro p hp
        obtain ⟨rest, hPath, _, _, _, hLast, _, hDepth⟩ :=
          findPaths_spec g tgt a [root] [root] p hp
        have hrest : rest ≠ [] := by
          intro h
          rw [h] at hLast
          simp only [List.getLast?_singleton, Option.some.injEq] at hLast
          exact ha hLast
        have hlen : p.Path.length = rest.length + 2 := by
          rw [hPath]; simp
        have hlen1 : 1 ≤ rest.length := by
          cases rest with
          | nil => exact absurd rfl hrest
          | cons x xs => simp
        simp only [decide_eq_true_eq]
        omega
      rw [hnil]
      have : List.count tgt (a :: l) = List.count tgt l := by
        rw [List.count_cons_of_ne (fun h => ha h.symm) l]
      rw [this]
      simp

/-- Association-list lookup agrees with entry search when keys are unique. -/
theorem mem_lookupEdges_iff {es : List (String × List String)}
    (hkeys : (es.map Prod.fst).Nodup) (c a : String) :
    a ∈ lookupEdges es c ↔ ∃ pc ∈ es, pc.1 = c ∧ a ∈ pc.2 := by
  induction es with
  | nil => simp [lookupEdges]
  | cons p rest ih =>
    simp only [List.map_cons, List.nodup_cons] at hkeys
    simp only [lookupEdges]
    by_cases hc : c = p.1
    · rw [if_pos hc]
      constructor
      · intro ha
        exact ⟨p, List.mem_cons_self p rest, hc.symm, ha⟩
      · rintro ⟨pc, hpc, hpc1, ha⟩
        rcases List.mem_cons.mp hpc with h | h
        · rw [← h]; exact ha
        · exfalso
          apply hkeys.1
          rw [List.mem_map]
          exact ⟨pc, h, by rw [hpc1, hc]⟩
    · rw [if_neg hc, ih hkeys.2]
      constructor
      · rintro ⟨pc, hpc, hpc1, ha⟩
        exact ⟨pc, List.mem_cons_of_mem p hpc, hpc1, ha⟩
      · rintro ⟨pc, hpc, hpc1, ha⟩
        rcases List.mem_cons.mp hpc with h | h
        · exfalso
          apply hc
          rw [← hpc1, h]
        · exact ⟨pc, h, hpc1, ha⟩

/-- Membership in the scanners' parents list: exactly the non-root keys whose
adjacency list mentions the node. -/
theorem scanParents_mem_iff (edges : List (String × List String)) (root name p : String) :
    p ∈ scanParents edges root name ↔
      (p ≠ root ∧ ∃ pc ∈ edges, pc.1 = p ∧ name ∈ pc.2) := by
  simp only [scanParents, List.mem_flatMap, List.mem_map, List.mem_filter]
  constructor
  · rintro ⟨pc, hpc, c, ⟨hcmem, hcprop⟩, hp⟩
    have hcn : c = name ∧ pc.1 ≠ root := by simpa using hcprop
    refine ⟨?_, pc, hpc, hp, ?_⟩
    · rw [← hp]; exact hcn.2
    · rw [← hcn.1]; exact hcmem
  · rintro ⟨hproot, pc, hpc, hpc1, hname⟩
    exact ⟨pc, hpc, name, ⟨hname, by simp [hpc1, hproot]⟩, hpc1⟩

/-- With duplicate-free adjacency lists, the parents loop contributes each
matching edge-map entry exactly once. -/
theorem scanParents_eq_filter_map (edges : List (String × List String)) (root name : String)
    (hadj : ∀ pc ∈ edges, pc.2.Nodup) :
    scanParents edges root name =
      (edges.filter (fun pc => name ∈ pc.2 ∧ pc.1 ≠ root)).map Prod.fst := by
  induction edges with
  | nil => rfl
  | cons pc rest ih =>
    have hadj' : ∀ q ∈ rest, q.2.Nodup := fun q hq => hadj q (List.mem_cons_of_mem pc hq)
    have hpcnd : pc.2.Nodup := hadj pc (List.mem_cons_self pc rest)
    simp only [scanParents] at ih ⊢
    rw [List.flatMap_cons, List.filter_cons]
    by_cases hcond : name ∈ pc.2 ∧ pc.1 ≠ root
    · rw [if_pos (by simpa using hcond)]
      have hfc : pc.2.filter (fun child => child = name ∧ pc.1 ≠ root) =
          pc.2.filter (fun child => child = name) := by
        apply List.filter_congr
        intro x _
        simp [hcond.2]
      rw [hfc, List.filter_eq, List.count_eq_one_of_mem hpcnd hcond.1]
      simp only [List.replicate_succ, List.replicate_zero, List.map_cons, List.map_nil,
        List.map_map, List.singleton_append]
      rw [ih hadj']
    · rw [if_neg (by simpa using hcond)]
      have hfc : pc.2.filter (fun child => child = name ∧ pc.1 ≠ root) = [] := by
        rw [List.filter_eq_nil_iff]
        intro c hc
        simp only [decide_eq_true_eq]
        intro hcc
        exact hcond ⟨hcc.1 ▸ hc, hcc.2⟩
      rw [hfc]
      simp only [List.map_nil, List.nil_append]
      exact ih hadj'

/-- The scanners' final guard: a successful result is exactly the non-empty
mapped dependency list. -/
theorem resolve_guard_ok {x deps : List Dependency} :
    (if x.isEmpty then (Except.error ScanError.invalidProject : Except ScanError (List Dependency))
      else Except.ok x) = Except.ok deps ↔ (deps = x ∧ deps ≠ []) := by
  by_cases h : x.isEmpty
  · rw [if_pos h]
    have hx : x = [] := List.isEmpty_iff.mp h
    subst hx
    simp
  · rw [if_neg h]
    have hx : x ≠ [] := by
      intro hn
      rw [hn] at h
      simp at h
    constructor
    · intro hh
      have := Except.ok.inj hh
      exact ⟨this.symm, this ▸ hx⟩
    · rintro ⟨rfl, _⟩
      rfl

theorem goResolve_ok_iff (g : DependencyGraph) (mainModule : String) (directDeps : List String)
    (nodes : List ModuleInfo) (deps : List Dependency) :
    goResolve g mainModule directDeps nodes = Except.ok deps ↔
      (deps = (nodes.filter (fun info => info.Path ≠ mainModule)).map
          (mkGoDep g mainModule directDeps) ∧ deps ≠ []) := by
  simp only [goResolve]
  exact resolve_guard_ok

theorem npmResolve_ok_iff (g : DependencyGraph) (versions : List (String × String))
    (directDeps : List (String × String)) (nodeNames : List String) (deps : List Dependency) :
    npmResolve g versions directDeps nodeNames = Except.ok deps ↔
      (deps = (nodeNames.filter (fun name => name ≠ "")).map (mkNpmDep g versions directDeps) ∧
        deps ≠ []) := by
  simp only [npmResolve]
  exact resolve_guard_ok

/-! ## Claim theorems -/

/-- C1 (failing-input evaluation): the two depth strategies of the source do
not agree.  On the one-edge graph `"" -> "A"`, the path-derived minimum depth
of `"A"` is `1`, but `CalculateDepth "A"` returns `-1` (by
`calculateMinDepth_eq_neg_one` it returns `-1` on every graph and node, since
its backward recursion has no base case producing `0` at the root). -/
theorem calculateDepth_disagrees_with_path_minimum :
    DependencyGraph.CalculateDepth ⟨[("", ["A"])]⟩ "A" = -1 ∧
      scanMinDepth (FindAllPaths ⟨[("", ["A"])]⟩ "" "A") = 1 := by
  constructor
  · exact calculateMinDepth_eq_neg_one _ _ _
  · rw [FindAllPaths_eq_E]
    decide

/-- C2: every path returned by `FindAllPaths g src tgt` starts at `src`, ends
at `tgt` with `tgt` occurring only in last position, steps only along direct
edges, repeats no node, and has `Depth` equal to its length minus one. -/
theorem findAllPaths_path_shape (g : DependencyGraph) (src tgt : String) (p : DependencyPath)
    (hp : p ∈ FindAllPaths g src tgt) :
    p.Path.head? = some src ∧ p.Path.getLast? = some tgt ∧ tgt ∉ p.Path.dropLast ∧
      List.Chain' g.hasEdge p.Path ∧ p.Path.Nodup ∧
      p.Depth = (p.Path.length : Int) - 1 := by
  obtain ⟨rest, hPath, hNodup, hChain, hLast, _, hDepth⟩ := FindAllPaths_spec g src tgt p hp
  exact ⟨by rw [hPath]; rfl, hLast, not_mem_dropLast_of_nodup hNodup hLast, hChain, hNodup,
    hDepth⟩

/-- C2 witness: on the graph `"" -> "a" -> "b"` the path `["", "a"]` is
returned for target `"a"` (the search does not continue past the target) and
has all the claimed properties. -/
theorem findAllPaths_path_shape_witness :
    ({ Path := ["", "a"], Depth := 1 } : DependencyPath) ∈
        FindAllPaths ⟨[("", ["a"]), ("a", ["b"])]⟩ "" "a" ∧
      (({ Path := ["", "a"], Depth := 1 } : DependencyPath).Path.head? = some "" ∧
        ({ Path := ["", "a"], Depth := 1 } : DependencyPath).Path.getLast? = some "a" ∧
        "a" ∉ ({ Path := ["", "a"], Depth := 1 } : DependencyPath).Path.dropLast ∧
        List.Chain' (DependencyGraph.hasEdge ⟨[("", ["a"]), ("a", ["b"])]⟩)
          ({ Path := ["", "a"], Depth := 1 } : DependencyPath).Path ∧
        ({ Path := ["", "a"], Depth := 1 } : DependencyPath).Path.Nodup ∧
        ({ Path := ["", "a"], Depth := 1 } : DependencyPath).Depth =
          ((({ Path := ["", "a"], Depth := 1 } : DependencyPath).Path.length : Int) - 1)) := by
  have hmem : ({ Path := ["", "a"], Depth := 1 } : DependencyPath) ∈
      FindAllPaths ⟨[("", ["a"]), ("a", ["b"])]⟩ "" "a" := by
    rw [FindAllPaths_eq_E]
    decide
  exact ⟨hmem, findAllPaths_path_shape _ "" "a" _ hmem⟩

/-- C3: on every finite graph, cyclic or not, `FindAllPaths` terminates (it is
a total function, by well-founded recursion on the unvisited support) and
emits only simple paths, whose length is bounded by the number of node
identities; `CalculateDepth` is likewise total by the same measure. -/
theorem findAllPaths_simple_and_bounded (g : DependencyGraph) (src tgt : String)
    (p : DependencyPath) (hp : p ∈ FindAllPaths g src tgt) :
    p.Path.Nodup ∧ p.Path.length ≤ (insert src g.support).card := by
  obtain ⟨rest, hPath, hNodup, _, _, hTgts, _⟩ := FindAllPaths_spec g src tgt p hp
  refine ⟨hNodup, ?_⟩
  have hsub : p.Path.toFinset ⊆ insert src g.support := by
    intro x hx
    rw [List.mem_toFinset, hPath] at hx
    rcases List.mem_cons.mp hx with h | h
    · rw [h]
      exact Finset.mem_insert_self src g.support
    · apply Finset.mem_insert_of_mem
      simp only [DependencyGraph.support, List.mem_toFinset, List.mem_append]
      exact Or.inr (hTgts x h)
  calc p.Path.length = p.Path.toFinset.card := (List.toFinset_card_of_nodup hNodup).symm
    _ ≤ (insert src g.support).card := Finset.card_le_card hsub

/-- C3 witness: the cyclic graph `"" -> A -> B -> A` still yields the finite
result `[["", "A"]]` for target `A`, whose single path is simple and
bounded. -/
theorem findAllPaths_simple_and_bounded_witness :
    ({ Path := ["", "A"], Depth := 1 } : DependencyPath) ∈
        FindAllPaths ⟨[("", ["A"]), ("A", ["B"]), ("B", ["A"])]⟩ "" "A" ∧
      (({ Path := ["", "A"], Depth := 1 } : DependencyPath).Path.Nodup ∧
        ({ Path := ["", "A"], Depth := 1 } : DependencyPath).Path.length ≤
          (insert "" (DependencyGraph.support ⟨[("", ["A"]), ("A", ["B"]), ("B", ["A"])]⟩)).card) := by
  have hmem : ({ Path := ["", "A"], Depth := 1 } : DependencyPath) ∈
      FindAllPaths ⟨[("", ["A"]), ("A", ["B"]), ("B", ["A"])]⟩ "" "A" := by
    rw [FindAllPaths_eq_E]
    decide
  exact ⟨hmem, findAllPaths_simple_and_bounded _ "" "A" _ hmem⟩

/-- C8: a target the root cannot reach through any edge sequence yields the
empty path list, and the scanners' minimum-depth loop reports `-1` for it. -/
theorem unreachable_yields_empty_and_depth_neg_one (g : DependencyGraph) (src tgt : String)
    (h : ¬ g.Reachable src tgt) :
    FindAllPaths g src tgt = [] ∧ scanMinDepth (FindAllPaths g src tgt) = -1 := by
  have hempty : FindAllPaths g src tgt = [] := by
    cases hFA : FindAllPaths g src tgt with
    | nil => rfl
    | cons p rest =>
      exfalso
      have hp : p ∈ FindAllPaths g src tgt := by
        rw [hFA]
        exact List.mem_cons_self p rest
      obtain ⟨r, hPath, _, hChain, hLast, _, _⟩ := FindAllPaths_spec g src tgt p hp
      apply h
      rw [DependencyGraph.Reachable]
      rw [hPath] at hChain hLast
      exact chain'_reflTransGen r src tgt hChain hLast
  exact ⟨hempty, by rw [hempty]; rfl⟩

/-- C8 witness: on the graph `"" -> "A"`, the node `"B"` is unreachable, the
path list is empty and the reported depth is `-1`. -/
theorem unreachable_yields_empty_witness :
    ¬ (⟨[("", ["A"])]⟩ : DependencyGraph).Reachable "" "B" ∧
      FindAllPaths ⟨[("", ["A"])]⟩ "" "B" = [] ∧
      scanMinDepth (FindAllPaths ⟨[("", ["A"])]⟩ "" "B") = -1 := by
  have hnr : ¬ (⟨[("", ["A"])]⟩ : DependencyGraph).Reachable "" "B" := by
    intro h
    rcases h.cases_head with heq | ⟨c, hc, h'⟩
    · exact absurd heq (by decide)
    · have hcA : c = "A" := by
        simpa [DependencyGraph.hasEdge, DependencyGraph.getEdges, lookupEdges] using hc
      subst hcA
      rcases h'.cases_head with heq | ⟨d, hd, _⟩
      · exact absurd heq (by decide)
      · simp [DependencyGraph.hasEdge, DependencyGraph.getEdges, lookupEdges] at hd
  exact ⟨hnr, unreachable_yields_empty_and_depth_neg_one _ "" "B" hnr⟩

/-- C10: for every graph and every node `x`, `FindAllPaths g x x` is exactly
the singleton path `[x]` with depth `0`: the target check precedes edge
expansion, so even a self-loop adds no further path. -/
theorem findAllPaths_self_singleton (g : DependencyGraph) (x : String) :
    FindAllPaths g x x = [{ Path := [x], Depth := 0 }] := by
  rw [FindAllPaths, findPaths_unfold]
  rw [if_neg (List.not_mem_nil x), if_pos rfl]
  norm_num

/-- C5: when resolution yields zero dependencies besides the root, both
scanners return `ErrInvalidProject`, and neither ever returns an empty
dependency list as a successful result. -/
theorem empty_resolution_invalid_project (g : DependencyGraph) (mainModule : String)
    (directDeps : List String) (nodes : List ModuleInfo) (g2 : DependencyGraph)
    (versions directDeps2 : List (String × String)) (names : List String) :
    ((nodes.filter (fun info => info.Path ≠ mainModule)) = [] →
      goResolve g mainModule directDeps nodes = Except.error ScanError.invalidProject) ∧
    (∀ deps, goResolve g mainModule directDeps nodes = Except.ok deps → deps ≠ []) ∧
    ((names.filter (fun n => n ≠ "")) = [] →
      npmResolve g2 versions directDeps2 names = Except.error ScanError.invalidProject) ∧
    (∀ deps, npmResolve g2 versions directDeps2 names = Except.ok deps → deps ≠ []) := by
  refine ⟨?_, ?_, ?_, ?_⟩
  · intro h
    simp only [goResolve]
    rw [h]
    rfl
  · intro deps hok
    exact ((goResolve_ok_iff g mainModule directDeps nodes deps).mp hok).2
  · intro h
    simp only [npmResolve]
    rw [h]
    rfl
  · intro deps hok
    exact ((npmResolve_ok_iff g2 versions directDeps2 names deps).mp hok).2

/-- C5 witness: a Go project whose only module is the main module, and an npm
lock whose only package is the root, both resolve to `ErrInvalidProject`. -/
theorem empty_resolution_invalid_project_witness :
    goResolve ⟨[]⟩ "m" [] [⟨"m", "v", true, false⟩] =
        Except.error ScanError.invalidProject ∧
      npmResolve ⟨[]⟩ [] [] [""] = Except.error ScanError.invalidProject := by
  refine ⟨?_, ?_⟩
  · exact (empty_resolution_invalid_project ⟨[]⟩ "m" [] [⟨"m", "v", true, false⟩]
      ⟨[]⟩ [] [] [""]).1 (by decide)
  · exact (empty_resolution_invalid_project ⟨[]⟩ "m" [] [⟨"m", "v", true, false⟩]
      ⟨[]⟩ [] [] [""]).2.2.1 (by decide)

/-- C9: no successfully reported dependency carries the root identity as its
name: the Go scanner skips the main module, the npm scanner skips `""`. -/
theorem root_never_reported (g : DependencyGraph) (mainModule : String)
    (directDeps : List String) (nodes : List ModuleInfo) (g2 : DependencyGraph)
    (versions directDeps2 : List (String × String)) (names : List String) :
    (∀ deps, goResolve g mainModule directDeps nodes = Except.ok deps →
      ∀ d ∈ deps, d.Name ≠ mainModule) ∧
    (∀ deps, npmResolve g2 versions directDeps2 names = Except.ok deps →
      ∀ d ∈ deps, d.Name ≠ "") := by
  constructor
  · intro deps hok d hd
    obtain ⟨hdeps, _⟩ := (goResolve_ok_iff g mainModule directDeps nodes deps).mp hok
    rw [hdeps, List.mem_map] at hd
    obtain ⟨info, hinfo, hmk⟩ := hd
    rw [List.mem_filter] at hinfo
    have hne : info.Path ≠ mainModule := by simpa using hinfo.2
    rw [← hmk]
    simpa [mkGoDep] using hne
  · intro deps hok d hd
    obtain ⟨hdeps, _⟩ := (npmResolve_ok_iff g2 versions directDeps2 names deps).mp hok
    rw [hdeps, List.mem_map] at hd
    obtain ⟨name, hname, hmk⟩ := hd
    rw [List.mem_filter] at hname
    have hne : name ≠ "" := by simpa using hname.2
    rw [← hmk]
    simpa [mkNpmDep] using hne

/-- C9 witness: concrete successful scans whose reported names avoid the
respective root identities. -/
theorem root_never_reported_witness :
    goResolve ⟨[]⟩ "m" [] [⟨"m", "", true, false⟩, ⟨"A", "v1", false, false⟩] =
        Except.ok [{ Name := "A", Version := "v1", Type' := "go", IsDirectDep := false, Parent := "", Parents := [], Paths := [], Depth := -1 }] ∧
      npmResolve ⟨[]⟩ [] [] ["", "a"] =
        Except.ok [{ Name := "a", Version := "", Type' := "npm", IsDirectDep := false, Parent := "", Parents := [], Paths := [], Depth := -1 }] ∧
      ({ Name := "A", Version := "v1", Type' := "go", IsDirectDep := false, Parent := "", Parents := [], Paths := [], Depth := -1 } : Dependency).Name ≠ "m" ∧
      ({ Name := "a", Version := "", Type' := "npm", IsDirectDep := false, Parent := "", Parents := [], Paths := [], Depth := -1 } : Dependency).Name ≠ "" := by
  have hok1 : goResolve ⟨[]⟩ "m" [] [⟨"m", "", true, false⟩, ⟨"A", "v1", false, false⟩] =
      Except.ok [{ Name := "A", Version := "v1", Type' := "go", IsDirectDep := false, Parent := "", Parents := [], Paths := [], Depth := -1 }] := by
    rw [goResolve_eq_E]
    rfl
  have hok2 : npmResolve ⟨[]⟩ [] [] ["", "a"] =
      Except.ok [{ Name := "a", Version := "", Type' := "npm", IsDirectDep := false, Parent := "", Parents := [], Paths := [], Depth := -1 }] := by
    rw [npmResolve_eq_E]
    rfl
  refine ⟨hok1, hok2, ?_, ?_⟩
  · exact (root_never_reported ⟨[]⟩ "m" [] [⟨"m", "", true, false⟩, ⟨"A", "v1", false, false⟩]
      ⟨[]⟩ [] [] ["", "a"]).1 _ hok1 _ (by decide)
  · exact (root_never_reported ⟨[]⟩ "m" [] [⟨"m", "", true, false⟩, ⟨"A", "v1", false, false⟩]
      ⟨[]⟩ [] [] ["", "a"]).2 _ hok2 _ (by decide)

/-- C4: a Go dependency is classified direct exactly when the tooling metadata
does not flag it indirect and its module path is in the direct-requirement set
parsed from `go.mod`; a disagreement between the two sources resolves to
indirect. -/
theorem go_direct_classification (g : DependencyGraph) (mainModule content : String)
    (nodes : List ModuleInfo) (deps : List Dependency) (d : Dependency)
    (hok : goResolve g mainModule (getDirectDependencies content) nodes = Except.ok deps)
    (hd : d ∈ deps) :
    ∃ info ∈ nodes, d.Name = info.Path ∧
      (d.IsDirectDep = true ↔
        (info.Indirect = false ∧
          (getDirectDependencies content).contains info.Path = true)) := by
  obtain ⟨hdeps, _⟩ :=
    (goResolve_ok_iff g mainModule (getDirectDependencies content) nodes deps).mp hok
  rw [hdeps, List.mem_map] at hd
  obtain ⟨info, hinfo, hmk⟩ := hd
  rw [List.mem_filter] at hinfo
  refine ⟨info, hinfo.1, ?_, ?_⟩
  · rw [← hmk]
    simp [mkGoDep]
  · rw [← hmk]
    simp only [mkGoDep, Bool.and_eq_true, Bool.not_eq_eq_eq_not, Bool.not_true]

/-- C4 witness (the dual-check scenario): module `example.com/M` sits in the
`go.mod` require block (so it is in the parsed direct set) but the tooling
flags it `Indirect`; the classification resolves to indirect. -/
theorem go_direct_classification_witness :
    goResolve ⟨[("m", ["example.com/M"])]⟩ "m"
        (getDirectDependencies "module m\nrequire (\n example.com/M v1.0.0\n)\n")
        [⟨"m", "", true, false⟩, ⟨"example.com/M", "v1.0.0", false, true⟩] =
      Except.ok [{ Name := "example.com/M", Version := "v1.0.0", Type' := "go", IsDirectDep := false, Parent := "", Parents := [], Paths := [{ Path := ["m", "example.com/M"], Depth := 1 }], Depth := 1 }] ∧
    (getDirectDependencies "module m\nrequire (\n example.com/M v1.0.0\n)\n").contains
        "example.com/M" = true ∧
    (∃ info ∈ [(⟨"m", "", true, false⟩ : ModuleInfo), ⟨"example.com/M", "v1.0.0", false, true⟩],
      ({ Name := "example.com/M", Version := "v1.0.0", Type' := "go", IsDirectDep := false, Parent := "", Parents := [], Paths := [{ Path := ["m", "example.com/M"], Depth := 1 }], Depth := 1 } : Dependency).Name = info.Path ∧
      (({ Name := "example.com/M", Version := "v1.0.0", Type' := "go", IsDirectDep := false, Parent := "", Parents := [], Paths := [{ Path := ["m", "example.com/M"], Depth := 1 }], Depth := 1 } : Dependency).IsDirectDep = true ↔
        (info.Indirect = false ∧
          (getDirectDependencies "module m\nrequire (\n example.com/M v1.0.0\n)\n").contains
            info.Path = true))) := by
  have hok : goResolve ⟨[("m", ["example.com/M"])]⟩ "m"
      (getDirectDependencies "module m\nrequire (\n example.com/M v1.0.0\n)\n")
      [⟨"m", "", true, false⟩, ⟨"example.com/M", "v1.0.0", false, true⟩] =
      Except.ok [{ Name := "example.com/M", Version := "v1.0.0", Type' := "go", IsDirectDep := false, Parent := "", Parents := [], Paths := [{ Path := ["m", "example.com/M"], Depth := 1 }], Depth := 1 }] := by
    rw [goResolve_eq_E]
    rfl
  refine ⟨hok, by decide, ?_⟩
  exact go_direct_classification _ "m" _ _ _ _ hok (by decide)

/-- C6: if the root has exactly one declared edge to `D` (edge sets hold each
target once) and `D` is not the root itself, then the enumeration contains
exactly one depth-1 path, namely `[root, D]`, and the reported minimum depth of
`D` is `1`. -/
theorem direct_dependency_unit_path (g : DependencyGraph) (root D : String)
    (hne : D ≠ root) (hcount : (g.getEdges root).count D = 1) :
    (FindAllPaths g root D).filter (fun p => p.Depth = 1) =
        [{ Path := [root, D], Depth := 1 }] ∧
      scanMinDepth (FindAllPaths g root D) = 1 := by
  have hFA : FindAllPaths g root D =
      (g.getEdges root).flatMap (fun next => findPaths g D next [root] [root]) := by
    rw [FindAllPaths, findPaths_unfold]
    rw [if_neg (List.not_mem_nil root), if_neg (fun h => hne h.symm)]
    simp
  have hfilter : (FindAllPaths g root D).filter (fun p => p.Depth = 1) =
      List.replicate ((g.getEdges root).count D) { Path := [root, D], Depth := 1 } := by
    rw [hFA]
    exact filter_depth_one_flatMap g root D hne (g.getEdges root)
  have hone : (FindAllPaths g root D).filter (fun p => p.Depth = 1) =
      [{ Path := [root, D], Depth := 1 }] := by
    rw [hfilter, hcount]
    rfl
  refine ⟨hone, ?_⟩
  apply scanMinDepth_eq_one
  · intro p hp
    obtain ⟨rest, hPath, _, _, hLast, _, hDepth⟩ := FindAllPaths_spec g root D p hp
    have hrest : rest ≠ [] := by
      intro h
      rw [hPath, h] at hLast
      simp only [List.getLast?_singleton, Option.some.injEq] at hLast
      exact hne hLast.symm
    have hlen : p.Path.length = rest.length + 1 := by
      rw [hPath]
      simp
    have h1 : 1 ≤ rest.length := by
      cases rest with
      | nil => exact absurd rfl hrest
      | cons x xs => simp
    omega
  · refine ⟨{ Path := [root, D], Depth := 1 }, ?_, rfl⟩
    have hm : ({ Path := [root, D], Depth := 1 } : DependencyPath) ∈
        (FindAllPaths g root D).filter (fun p => p.Depth = 1) := by
      rw [hone]
      exact List.mem_cons_self _ _
    exact List.mem_of_mem_filter hm

/-- C6 witness: on the graph with root edges to `a` and `b` and a further edge
`a -> b`, the direct dependency `a` has exactly the depth-1 path
`["", "a"]` and reported minimum depth `1`. -/
theorem direct_dependency_unit_path_witness :
    ("a" : String) ≠ "" ∧
      ((⟨[("", ["a", "b"]), ("a", ["b"])]⟩ : DependencyGraph).getEdges "").count "a" = 1 ∧
      (FindAllPaths ⟨[("", ["a", "b"]), ("a", ["b"])]⟩ "" "a").filter (fun p => p.Depth = 1) =
        [{ Path := ["", "a"], Depth := 1 }] ∧
      scanMinDepth (FindAllPaths ⟨[("", ["a", "b"]), ("a", ["b"])]⟩ "" "a") = 1 := by
  have h := direct_dependency_unit_path ⟨[("", ["a", "b"]), ("a", ["b"])]⟩ "" "a"
    (by decide) (by decide)
  exact ⟨by decide, by decide, h.1, h.2⟩

/-- C7 (amended): the scanners' parents list contains exactly the non-root
identities with a declared edge to the node; it is duplicate-free provided
every adjacency list holds each target at most once (the spec's edge sets),
though a duplicated adjacency entry is echoed as a duplicated parent. -/
theorem scanParents_set_spec (edges : List (String × List String)) (root name p : String)
    (hkeys : (edges.map Prod.fst).Nodup) :
    (p ∈ scanParents edges root name ↔ (p ≠ root ∧ name ∈ lookupEdges edges p)) ∧
      ((∀ pc ∈ edges, pc.2.Nodup) → (scanParents edges root name).Nodup) := by
  constructor
  · rw [scanParents_mem_iff, mem_lookupEdges_iff hkeys p name]
  · intro hadj
    rw [scanParents_eq_filter_map edges root name hadj]
    exact List.Nodup.sublist (List.Sublist.map Prod.fst (List.filter_sublist edges)) hkeys

/-- C7 witness: on the graph `"" -> b`, `a -> b` with set-valued adjacency
lists, the parents of `b` are exactly the non-root predecessors and carry no
duplicates. -/
theorem scanParents_set_spec_witness :
    (("a" : String) ∈ scanParents [("", ["b"]), ("a", ["b"])] "" "b" ↔
        (("a" : String) ≠ "" ∧ "b" ∈ lookupEdges [("", ["b"]), ("a", ["b"])] "a")) ∧
      (scanParents [("", ["b"]), ("a", ["b"])] "" "b").Nodup := by
  have h := scanParents_set_spec [("", ["b"]), ("a", ["b"])] "" "b" "a" (by decide)
  exact ⟨h.1, h.2 (by decide)⟩

/-- C7 counterexample: two versions of module `A` both requiring `B` collapse,
after version stripping of the `go mod graph` output, to a duplicated
adjacency entry `A -> [B, B]`, and the reported dependency `B` then lists the
parent `A` twice: the claim that `Parents` never repeats an identity fails. -/
theorem scanParents_duplicate_counterexample :
    goResolve ⟨parseGraphLines ["m A@v1", "A@v1 B@v1", "A@v2 B@v2"]⟩ "m" []
        [⟨"m", "", true, false⟩, ⟨"A", "v1", false, false⟩, ⟨"B", "v1", false, false⟩] =
      Except.ok [{ Name := "A", Version := "v1", Type' := "go", IsDirectDep := false, Parent := "", Parents := [], Paths := [{ Path := ["m", "A"], Depth := 1 }], Depth := 1 }, { Name := "B", Version := "v1", Type' := "go", IsDirectDep := false, Parent := "A", Parents := ["A", "A"], Paths := [{ Path := ["m", "A", "B"], Depth := 2 }, { Path := ["m", "A", "B"], Depth := 2 }], Depth := 2 }] ∧
      ¬ (["A", "A"] : List String).Nodup := by
  constructor
  · rw [goResolve_eq_E]
    rfl
  · decide
